import Mathlib

/-!
# gcc/testsuite/c-c++-common/attr-used-6.c

A verification development for the test case `attr-used-6.c`: the two C
functions `free_slotinfo` and `free_mem` over a flat memory of pointer cells,
and the two `scan-assembler` patterns of its `dg-final` directives.
-/

namespace AttrUsed6

/-! ## Memory model -/

/-- An address of the flat memory; address `0` is the null pointer. -/
abbrev Addr := Nat

/-- The null pointer. -/
def NULL : Addr := 0

/-- Memory contents: each address holds one pointer-sized cell. -/
abbrev Heap := Addr → Addr

/-- Offset of the member `next` inside `struct dtv_slotinfo_list`
(source lines 4-7): it is the first and only member. -/
def offsetof_next : Nat := 0

/-- How the evaluation of a call whose C return type is `α` ends. -/
inductive Outcome (α : Type) where
  | ret (v : α)
  | nullDeref
  | outOfFuel
  deriving DecidableEq, Repr

/-- The load `*p` of a pointer cell: reading through the null pointer is an
error, any other address yields the content of its cell. -/
def load (h : Heap) (p : Addr) : Option Addr :=
  if p = NULL then none else some (h p)

/-- The address computation `&(p)->next`: no memory access, only the offset of
the member added to the node pointer. -/
def addr_next (p : Addr) : Addr := p + offsetof_next

/-! ## The two functions of the test (source lines 11-24) -/

/-- Source lines 11-17:
`if (!free_slotinfo (&(*elemp)->next)) return 0; return 1;`
The fuel bounds the number of nested activations; the heap is threaded through
the evaluation and handed back with the outcome. -/
def free_slotinfo (h : Heap) (elemp : Addr) : Nat → Outcome Int × Heap
  | 0 => (.outOfFuel, h)
  | fuel + 1 =>
    match load h elemp with
    | none => (.nullDeref, h)
    | some p =>
      match free_slotinfo h (addr_next p) fuel with
      | (.ret r, h1) => if r = 0 then (.ret 0, h1) else (.ret 1, h1)
      | (.nullDeref, h1) => (.nullDeref, h1)
      | (.outOfFuel, h1) => (.outOfFuel, h1)

/-- Source lines 19-24: `free_slotinfo (&list);` with the result discarded.
`addr_list` is `&list`, the address of the extern global of line 9. -/
def free_mem (addr_list : Addr) (h : Heap) (fuel : Nat) : Outcome Unit × Heap :=
  match free_slotinfo h addr_list fuel with
  | (.ret _, h1) => (.ret (), h1)
  | (.nullDeref, h1) => (.nullDeref, h1)
  | (.outOfFuel, h1) => (.outOfFuel, h1)

/-! ## Shapes of the heap -/

/-- The pointer value `p` is the head of a null-terminated
`dtv_slotinfo_list` whose nodes lie, in order, at the addresses `nodes`. -/
def isList (h : Heap) : Addr → List Addr → Bool
  | p, [] => decide (p = NULL)
  | p, a :: rest => decide (p = a) && decide (a ≠ NULL) && isList h (h (addr_next a)) rest

/-- The pointer cell handed to the `k`-th nested activation when the outermost
one is handed `elemp`. -/
def cell (h : Heap) : Nat → Addr → Addr
  | 0, elemp => elemp
  | k + 1, elemp => cell h k (addr_next (h elemp))

/-- Following `next` from the cell `elemp` runs into a cycle: two different
depths hand over the same cell and no cell up to there is null. -/
def isCyclic (h : Heap) (elemp : Addr) : Prop :=
  ∃ i j, i < j ∧ cell h i elemp = cell h j elemp ∧ ∀ k, k < j → cell h k elemp ≠ NULL

/-- A heap with `list` at address 8 and two nodes, at 16 and at 24, the
second one ending the list. -/
def heap_two : Heap := fun a => if a = 8 then 16 else if a = 16 then 24 else 0

/-- A heap with `list` at address 8 and two nodes, at 16 and at 24, the
second one pointing back to the first. -/
def heap_loop : Heap :=
  fun a => if a = 8 then 16 else if a = 16 then 24 else if a = 24 then 16 else 0

/-! ## The `scan-assembler` directives (source lines 26-27) -/

/-- Source line 26: the pattern word of the first `scan-assembler` directive;
the characters are those of the quoted word, where a backslash-quote stands for
a quote. -/
def pattern_ax : String := "__libc_freeres_fn,\"ax\""

/-- Source line 27: the pattern word of the second `scan-assembler` directive. -/
def pattern_axR : String := "__libc_freeres_fn,\"axR\""

/-- The characters with a special meaning in a regular expression. -/
def regexSpecial : List Char :=
  ['.', '*', '+', '?', '(', ')', '[', ']', '\x7b', '\x7d', '|', '^', '$', '\\']

/-- The pattern consists of ordinary characters only, each of which matches
itself and nothing else. -/
def isLiteral (pat : String) : Bool :=
  pat.data.all (fun c => !(regexSpecial.contains c))

/-- The pattern `pat` matches at the very start of `text`. -/
def matchesAt : List Char → List Char → Bool
  | [], _ => true
  | _ :: _, [] => false
  | c :: cs, d :: ds => (c == d) && matchesAt cs ds

/-- The pattern `pat` matches at some position of `text`. -/
def matchesSomewhere (pat : List Char) : List Char → Bool
  | [] => matchesAt pat []
  | d :: ds => matchesAt pat (d :: ds) || matchesSomewhere pat ds

/-- Modelled from the spec: the `scan-assembler` directive of the test harness
(`gcc/testsuite/lib/scanasm.exp`, which is not among the sources). The check
passes when the assembler output contains a match of the pattern at any
position (the pattern is not anchored); for a pattern of ordinary characters a
match is an occurrence of the pattern text. -/
def scan_assembler (pat output : String) : Bool :=
  matchesSomewhere pat.data output.data

/-- An assembler output with a single section directive, carrying the `R` flag. -/
def asm_retained_only : String := "\t.section\t__libc_freeres_fn,\"axR\",@progbits\n"

/-- An assembler output with two section directives of the same name, one
without and one with the `R` flag. -/
def asm_both : String :=
  "\t.section\t__libc_freeres_fn,\"ax\",@progbits\n\t.section\t__libc_freeres_fn,\"axR\",@progbits\n"

/-- An assembler output whose only section directive carries the `R` flag,
preceded by a comment line that holds the text of the line-26 pattern. -/
def asm_comment : String :=
  "# __libc_freeres_fn,\"ax\"\n\t.section\t__libc_freeres_fn,\"axR\",@progbits\n"

/-- An assembler output with a directive for another section, whose longer name
ends in the name of the test, and a single directive for the section of the
test, carrying the `R` flag. -/
def asm_longer_name : String :=
  "\t.section\tmy__libc_freeres_fn,\"ax\",@progbits\n\t.section\t__libc_freeres_fn,\"axR\",@progbits\n"

/-! ## Section directives of an assembler output -/

/-- Source lines 11 and 19: the section name given to both functions. -/
def section_name : String := "__libc_freeres_fn"

/-- The word that opens a section directive. -/
def directive_word : String := ".section"

/-- A blank or a tab. -/
def isBlank (c : Char) : Bool := c == ' ' || c == '\t'

/-- The lines of a text, cut at each newline. -/
def splitLines : List Char → List (List Char)
  | [] => [[]]
  | c :: cs =>
    match splitLines cs with
    | [] => [[]]
    | l :: ls => if c == '\n' then [] :: l :: ls else (c :: l) :: ls

/-- The text left after the leading word `w`, when the text starts with it. -/
def dropLeading : List Char → List Char → Option (List Char)
  | [], t => some t
  | _ :: _, [] => none
  | c :: cs, d :: ds => if c == d then dropLeading cs ds else none

/-- Modelled from the spec: the form of a section directive in the assembler
output (the assembler and the compiler's output routines are not among the
sources). The claims read `name,"flags"` after the directive word as the
directive for section `name` with the flag string `flags`: a line is a
directive when, after leading blanks, it starts with `.section` followed by a
blank; the name runs up to the first comma, the flag string stands between the
quotes after it and is empty when there is none. -/
def sectionOf (line : List Char) : Option (List Char × List Char) :=
  match dropLeading directive_word.data (line.dropWhile isBlank) with
  | none => none
  | some [] => none
  | some (c :: rest) =>
    if isBlank c then
      let operands := rest.dropWhile isBlank
      let name := operands.takeWhile (fun x => x != ',')
      match ((operands.dropWhile (fun x => x != ',')).drop 1).dropWhile isBlank with
      | '\x22' :: flags => some (name, flags.takeWhile (fun x => x != '\x22'))
      | _ => some (name, [])
    else none

/-- The section directives of an assembler output, in order: name and flag
string of each. -/
def sections (output : String) : List (List Char × List Char) :=
  (splitLines output.data).filterMap sectionOf

/-- The output has a directive for the section of the test whose flag string
is without `R`. -/
def hasUnretainedSection (output : String) : Bool :=
  (sections output).any (fun nf => nf.1 == section_name.data && !(nf.2.contains 'R'))

/-! ## Lemmas on `free_slotinfo` -/

theorem free_slotinfo_null (h : Heap) (fuel : Nat) :
    free_slotinfo h NULL (fuel + 1) = (.nullDeref, h) := by
  simp [free_slotinfo, load]

theorem free_slotinfo_heap (h : Heap) (fuel : Nat) :
    ∀ elemp, (free_slotinfo h elemp fuel).2 = h := by
  induction fuel with
  | zero => intro elemp; rfl
  | succ n ih =>
    intro elemp
    unfold free_slotinfo
    cases hl : load h elemp with
    | none => rfl
    | some p =>
      have hp := ih (addr_next p)
      simp only
      split
      · split <;> simp_all
      · simp_all
      · simp_all

theorem free_slotinfo_no_ret (h : Heap) (fuel : Nat) :
    ∀ elemp v, (free_slotinfo h elemp fuel).1 ≠ .ret v := by
  induction fuel with
  | zero => intro elemp v; simp [free_slotinfo]
  | succ n ih =>
    intro elemp v
    unfold free_slotinfo
    cases hl : load h elemp with
    | none => simp
    | some p =>
      have hp := ih (addr_next p)
      simp only
      split
      · rename_i r h1 heq
        exact absurd (congrArg Prod.fst heq) (hp r)
      · simp
      · simp

theorem free_slotinfo_succ (h : Heap) (elemp : Addr) (fuel : Nat) (hne : elemp ≠ NULL) :
    free_slotinfo h elemp (fuel + 1) = free_slotinfo h (addr_next (h elemp)) fuel := by
  have hno := free_slotinfo_no_ret h fuel (addr_next (h elemp))
  have hl : load h elemp = some (h elemp) := by simp [load, hne]
  rw [free_slotinfo, hl]
  simp only
  split
  · rename_i r h1 heq
    exact absurd (congrArg Prod.fst heq) (hno r)
  · rename_i h1 heq; exact heq.symm
  · rename_i h1 heq; exact heq.symm

theorem addr_next_eq (p : Addr) : addr_next p = p := rfl

theorem cell_add (h : Heap) (a b : Nat) :
    ∀ elemp, cell h (a + b) elemp = cell h a (cell h b elemp) := by
  induction b with
  | zero => intro elemp; rfl
  | succ n ih => intro elemp; exact ih (addr_next (h elemp))

theorem free_slotinfo_list (h : Heap) (nodes : List Addr) :
    ∀ elemp fuel, elemp ≠ NULL → isList h (h elemp) nodes = true →
      (free_slotinfo h elemp fuel).1
        = if nodes.length + 2 ≤ fuel then .nullDeref else .outOfFuel := by
  induction nodes with
  | nil =>
    intro elemp fuel hne hl
    have h0 : h elemp = NULL := by simpa [isList] using hl
    match fuel with
    | 0 => simp [free_slotinfo]
    | 1 => rw [free_slotinfo_succ h elemp 0 hne]; simp [free_slotinfo]
    | f + 2 =>
      rw [free_slotinfo_succ h elemp (f + 1) hne, h0, addr_next_eq, free_slotinfo_null]
      simp
  | cons a rest ih =>
    intro elemp fuel hne hl
    simp only [isList, Bool.and_eq_true, decide_eq_true_eq] at hl
    obtain ⟨⟨ha, hane⟩, hrest⟩ := hl
    match fuel with
    | 0 => simp [free_slotinfo]
    | f + 1 =>
      rw [free_slotinfo_succ h elemp f hne, ha, ih (addr_next a) f (by simpa [addr_next_eq] using hane) hrest]
      simp only [List.length_cons]
      by_cases hc : rest.length + 2 ≤ f
      · have : rest.length + 1 + 2 ≤ f + 1 := by omega
        simp [hc, this]
      · have : ¬ (rest.length + 1 + 2 ≤ f + 1) := by omega
        simp [hc, this]

theorem cell_list (h : Heap) (nodes : List Addr) :
    ∀ elemp, elemp ≠ NULL → isList h (h elemp) nodes = true →
      (∀ k, k ≤ nodes.length → cell h k elemp ≠ NULL) ∧ cell h (nodes.length + 1) elemp = NULL := by
  induction nodes with
  | nil =>
    intro elemp hne hl
    have h0 : h elemp = NULL := by simpa [isList] using hl
    refine ⟨?_, ?_⟩
    · intro k hk
      have : k = 0 := by simpa using hk
      subst this; exact hne
    · simp [cell, h0, addr_next_eq]
  | cons a rest ih =>
    intro elemp hne hl
    simp only [isList, Bool.and_eq_true, decide_eq_true_eq] at hl
    obtain ⟨⟨ha, hane⟩, hrest⟩ := hl
    obtain ⟨h1, h2⟩ := ih (addr_next a) (by simpa [addr_next_eq] using hane) hrest
    refine ⟨?_, ?_⟩
    · intro k hk
      match k with
      | 0 => exact hne
      | j + 1 =>
        show cell h j (addr_next (h elemp)) ≠ NULL
        rw [ha]
        exact h1 j (by simpa using hk)
    · show cell h (rest.length + 1) (addr_next (h elemp)) = NULL
      rw [ha]; exact h2

theorem free_slotinfo_never_null (h : Heap) (fuel : Nat) :
    ∀ elemp, (∀ k, cell h k elemp ≠ NULL) → free_slotinfo h elemp fuel = (.outOfFuel, h) := by
  induction fuel with
  | zero => intro elemp _; rfl
  | succ n ih =>
    intro elemp hall
    rw [free_slotinfo_succ h elemp n (hall 0)]
    exact ih _ (fun k => hall (k + 1))

theorem cell_of_cyclic (h : Heap) (elemp : Addr) (hc : isCyclic h elemp) :
    ∀ k, cell h k elemp ≠ NULL := by
  obtain ⟨i, j, hij, heq, hlt⟩ := hc
  intro k
  induction k using Nat.strong_induction_on with
  | _ k ih =>
    by_cases hk : k < j
    · exact hlt k hk
    · obtain ⟨m, rfl⟩ : ∃ m, k = m + j := ⟨k - j, by omega⟩
      rw [cell_add, ← heq, ← cell_add]
      exact ih (m + i) (by omega)

theorem free_mem_nullDeref (addr_list : Addr) (h : Heap) (fuel : Nat)
    (ho : (free_slotinfo h addr_list fuel).1 = .nullDeref) :
    (free_mem addr_list h fuel).1 = .nullDeref := by
  unfold free_mem
  split <;> simp_all

theorem free_mem_outOfFuel (addr_list : Addr) (h : Heap) (fuel : Nat)
    (ho : (free_slotinfo h addr_list fuel).1 = .outOfFuel) :
    (free_mem addr_list h fuel).1 = .outOfFuel := by
  unfold free_mem
  split <;> simp_all

theorem free_mem_no_ret (addr_list : Addr) (h : Heap) (fuel : Nat) (u : Unit) :
    (free_mem addr_list h fuel).1 ≠ .ret u := by
  have hno := free_slotinfo_no_ret h fuel addr_list
  unfold free_mem
  split
  · rename_i r h1 heq
    exact absurd (congrArg Prod.fst heq) (hno r)
  · simp
  · simp

theorem free_mem_heap (addr_list : Addr) (h : Heap) (fuel : Nat) :
    (free_mem addr_list h fuel).2 = h := by
  have hh := free_slotinfo_heap h fuel addr_list
  unfold free_mem
  split <;> simp_all

/-! ## Lemmas on the pattern matcher -/

theorem matchesAt_iff (pat : List Char) :
    ∀ text, matchesAt pat text = true ↔ ∃ post, text = pat ++ post := by
  induction pat with
  | nil => intro text; simp [matchesAt]
  | cons c cs ih =>
    intro text
    cases text with
    | nil => simp [matchesAt]
    | cons d ds =>
      simp only [matchesAt, Bool.and_eq_true, beq_iff_eq, ih ds, List.cons_append,
        List.cons.injEq]
      constructor
      · rintro ⟨rfl, post, rfl⟩; exact ⟨post, rfl, rfl⟩
      · rintro ⟨post, rfl, rfl⟩; exact ⟨rfl, post, rfl⟩

theorem matchesSomewhere_iff (pat : List Char) :
    ∀ text, matchesSomewhere pat text = true ↔ ∃ pre post, text = pre ++ pat ++ post := by
  intro text
  induction text with
  | nil =>
    simp only [matchesSomewhere, matchesAt_iff]
    constructor
    · rintro ⟨post, hp⟩; exact ⟨[], post, by simpa using hp⟩
    · rintro ⟨pre, post, hp⟩
      have hp2 := hp.symm
      simp only [List.append_eq_nil] at hp2
      exact ⟨[], by simp [hp2.1.2]⟩
  | cons d ds ih =>
    simp only [matchesSomewhere, Bool.or_eq_true, matchesAt_iff, ih]
    constructor
    · rintro (⟨post, hp⟩ | ⟨pre, post, hp⟩)
      · exact ⟨[], post, by simpa using hp⟩
      · exact ⟨d :: pre, post, by simp [hp]⟩
    · rintro ⟨pre, post, hp⟩
      cases pre with
      | nil => exact Or.inl ⟨post, by simpa using hp⟩
      | cons e pre2 =>
        simp only [List.cons_append, List.cons.injEq] at hp
        exact Or.inr ⟨pre2, post, hp.2⟩

theorem matchesAt_unique (p q : List Char) (hlen : p.length ≤ q.length)
    (hpq : matchesAt p q = false) (text : List Char) (hp : matchesAt p text = true) :
    matchesAt q text = false := by
  cases hq : matchesAt q text with
  | false => rfl
  | true =>
    obtain ⟨post1, h1⟩ := (matchesAt_iff p text).1 hp
    obtain ⟨post2, h2⟩ := (matchesAt_iff q text).1 hq
    have hpre : p <+: q :=
      List.prefix_of_prefix_length_le ⟨post1, h1.symm⟩ ⟨post2, h2.symm⟩ hlen
    obtain ⟨r, hr⟩ := hpre
    have : matchesAt p q = true := (matchesAt_iff p q).2 ⟨r, hr.symm⟩
    rw [hpq] at this
    exact absurd this (by simp)

/-! ## The claims -/

/-- C5 (as stated, refuted): an assembler output whose only section directive
carries the flags `"axR"` passes the check of line 27 and fails the check of
line 26, so a match of the line-27 pattern does not bring a match of the
line-26 pattern with it. -/
theorem scan_assembler_axR_without_ax :
    scan_assembler pattern_axR asm_retained_only = true ∧
    scan_assembler pattern_ax asm_retained_only = false ∧
    ¬ (∀ s : String, scan_assembler pattern_axR s = true → scan_assembler pattern_ax s = true) := by
  have h1 : scan_assembler pattern_axR asm_retained_only = true := by decide
  have h2 : scan_assembler pattern_ax asm_retained_only = false := by decide
  refine ⟨h1, h2, ?_⟩
  intro hall
  have h3 := hall asm_retained_only h1
  rw [h2] at h3
  exact absurd h3 (by simp)

/-- C5 (amended): the check of line 27 does not subsume the check of line 26.
Both patterns consist of ordinary characters; the line-26 pattern ends in the
closing quote and is not a prefix of the line-27 pattern, no position of a text
matches both, and an output matching the line-27 pattern matches only the
line-26 pattern without its closing quote. The two checks together still do
not establish that a directive for `__libc_freeres_fn` without the `R` flag
exists, because the search is not anchored: an output holding the line-26 text
in a comment line, or as the tail of a longer section name, next to a single
directive for `__libc_freeres_fn` with the flags `"axR"`, passes both checks. -/
theorem scan_assembler_checks_not_conclusive (output : String) :
    isLiteral pattern_ax = true ∧ isLiteral pattern_axR = true ∧
    matchesAt pattern_ax.data pattern_axR.data = false ∧
    (∀ text, matchesAt pattern_ax.data text = true → matchesAt pattern_axR.data text = false) ∧
    (scan_assembler pattern_axR output = true →
      matchesSomewhere pattern_ax.data.dropLast output.data = true) ∧
    (scan_assembler pattern_ax asm_comment = true ∧
      scan_assembler pattern_axR asm_comment = true ∧
      sections asm_comment = [(section_name.data, ['a', 'x', 'R'])] ∧
      hasUnretainedSection asm_comment = false) ∧
    (scan_assembler pattern_ax asm_longer_name = true ∧
      scan_assembler pattern_axR asm_longer_name = true ∧
      sections asm_longer_name
        = [('m' :: 'y' :: section_name.data, ['a', 'x']), (section_name.data, ['a', 'x', 'R'])] ∧
      hasUnretainedSection asm_longer_name = false) ∧
    ¬ (∀ s : String, scan_assembler pattern_ax s = true → scan_assembler pattern_axR s = true →
        hasUnretainedSection s = true) := by
  have hnp : matchesAt pattern_ax.data pattern_axR.data = false := by decide
  have huniq := matchesAt_unique pattern_ax.data pattern_axR.data (by decide) hnp
  have hc1 : scan_assembler pattern_ax asm_comment = true := by decide
  have hc2 : scan_assembler pattern_axR asm_comment = true := by decide
  have hc3 : hasUnretainedSection asm_comment = false := by decide
  refine ⟨by decide, by decide, hnp, huniq, ?_, ⟨hc1, hc2, by decide, hc3⟩,
    ⟨by decide, by decide, by decide, by decide⟩, ?_⟩
  · intro h
    obtain ⟨pre, post, hp⟩ := (matchesSomewhere_iff _ _).1 h
    have hsplit : pattern_axR.data = pattern_ax.data.dropLast ++ ['R', '\x22'] := by decide
    refine (matchesSomewhere_iff _ _).2 ⟨pre, ['R', '\x22'] ++ post, ?_⟩
    rw [hp, hsplit]
    simp
  · intro hall
    have h3 := hall asm_comment hc1 hc2
    rw [hc3] at h3
    exact absurd h3 (by simp)

/-- Witness of C5 (amended): the output with the single `"axR"` directive
matches the line-27 pattern, hence the line-26 pattern without its closing
quote; the output with both directives is read as two directives of the
section of the test, one of them without `R`. -/
theorem scan_assembler_checks_not_conclusive_witness :
    scan_assembler pattern_axR asm_retained_only = true ∧
    matchesSomewhere pattern_ax.data.dropLast asm_retained_only.data = true ∧
    sections asm_both
      = [(section_name.data, ['a', 'x']), (section_name.data, ['a', 'x', 'R'])] ∧
    hasUnretainedSection asm_both = true :=
  ⟨by decide,
    (scan_assembler_checks_not_conclusive asm_retained_only).2.2.2.2.1 (by decide),
    by decide, by decide⟩

/-- C6: `free_slotinfo` has no base case. No call of `free_slotinfo`, and so no
call of `free_mem`, returns a value, whatever the heap and the fuel; an
activation on the null pointer faults, one on another pointer ends as the
nested call on `&(*elemp)->next` ends. On a heap holding a null-terminated list
of `n` nodes the cells handed to the first `n + 1` activations are not null and
the next one, the `(n+1)`-th recursive call, is handed the null pointer: the
evaluation ends in the null dereference when the fuel allows `n + 2`
activations and runs out of fuel otherwise. On a cyclic list it runs out of
fuel for every fuel. -/
theorem free_slotinfo_no_base_case (h : Heap) (elemp : Addr) (fuel : Nat) :
    (∀ v, (free_slotinfo h elemp fuel).1 ≠ .ret v) ∧
    (∀ u, (free_mem elemp h fuel).1 ≠ .ret u) ∧
    free_slotinfo h NULL (fuel + 1) = (.nullDeref, h) ∧
    (elemp ≠ NULL →
      free_slotinfo h elemp (fuel + 1) = free_slotinfo h (addr_next (h elemp)) fuel) ∧
    (∀ nodes, elemp ≠ NULL → isList h (h elemp) nodes = true →
      (∀ k, k ≤ nodes.length → cell h k elemp ≠ NULL) ∧
      cell h (nodes.length + 1) elemp = NULL ∧
      (free_slotinfo h elemp fuel).1
        = (if nodes.length + 2 ≤ fuel then .nullDeref else .outOfFuel) ∧
      (free_mem elemp h fuel).1
        = (if nodes.length + 2 ≤ fuel then .nullDeref else .outOfFuel)) ∧
    (isCyclic h elemp →
      (free_slotinfo h elemp fuel).1 = .outOfFuel ∧
      (free_mem elemp h fuel).1 = .outOfFuel) := by
  refine ⟨free_slotinfo_no_ret h fuel elemp, free_mem_no_ret elemp h fuel,
    free_slotinfo_null h fuel, free_slotinfo_succ h elemp fuel, ?_, ?_⟩
  · intro nodes hne hl
    obtain ⟨hc1, hc2⟩ := cell_list h nodes elemp hne hl
    have hf := free_slotinfo_list h nodes elemp fuel hne hl
    refine ⟨hc1, hc2, hf, ?_⟩
    by_cases hfu : nodes.length + 2 ≤ fuel
    · rw [if_pos hfu] at hf ⊢
      exact free_mem_nullDeref elemp h fuel hf
    · rw [if_neg hfu] at hf ⊢
      exact free_mem_outOfFuel elemp h fuel hf
  · intro hcyc
    have hf : (free_slotinfo h elemp fuel).1 = .outOfFuel := by
      rw [free_slotinfo_never_null h fuel elemp (cell_of_cyclic h elemp hcyc)]
    exact ⟨hf, free_mem_outOfFuel elemp h fuel hf⟩

/-- Witness of C6: on the two-node list at address 8 the evaluation faults with
fuel 4 and is cut off with fuel 3; on the looping heap it is cut off with
fuel 100. -/
theorem free_slotinfo_no_base_case_witness :
    ((8 : Addr) ≠ NULL ∧ isList heap_two (heap_two 8) [16, 24] = true ∧
      (free_slotinfo heap_two 8 4).1 = .nullDeref ∧
      (free_slotinfo heap_two 8 3).1 = .outOfFuel) ∧
    (isCyclic heap_loop 8 ∧ (free_slotinfo heap_loop 8 100).1 = .outOfFuel) := by
  have hne : (8 : Addr) ≠ NULL := by decide
  have hl : isList heap_two (heap_two 8) [16, 24] = true := by decide
  have hcyc : isCyclic heap_loop 8 :=
    ⟨1, 3, by decide, by decide, fun k hk => by interval_cases k <;> decide⟩
  have h4 := ((free_slotinfo_no_base_case heap_two 8 4).2.2.2.2.1 [16, 24] hne hl).2.2.1
  have h3 := ((free_slotinfo_no_base_case heap_two 8 3).2.2.2.2.1 [16, 24] hne hl).2.2.1
  have hloop := ((free_slotinfo_no_base_case heap_loop 8 100).2.2.2.2.2 hcyc).1
  exact ⟨⟨hne, hl, by simpa using h4, by simpa using h3⟩, hcyc, hloop⟩

/-- C7: `free_slotinfo` and `free_mem` are read-only. For every heap, every
argument and every fuel, the heap handed back equals the heap handed in,
whether the evaluation ends in a value, in the null dereference or out of
fuel; in particular the cell of the global `list` and the `next` member of
every node keep their value. -/
theorem free_slotinfo_read_only (h : Heap) (elemp addr_list : Addr) (fuel : Nat) :
    (free_slotinfo h elemp fuel).2 = h ∧
    (free_mem addr_list h fuel).2 = h ∧
    (free_slotinfo h elemp fuel).2 addr_list = h addr_list ∧
    (∀ node, (free_slotinfo h elemp fuel).2 (addr_next node) = h (addr_next node)) ∧
    (free_mem addr_list h fuel).2 addr_list = h addr_list ∧
    (∀ node, (free_mem addr_list h fuel).2 (addr_next node) = h (addr_next node)) := by
  have h1 := free_slotinfo_heap h fuel elemp
  have h2 := free_mem_heap addr_list h fuel
  refine ⟨h1, h2, ?_, ?_, ?_, ?_⟩
  · rw [h1]
  · intro node; rw [h1]
  · rw [h2]
  · intro node; rw [h2]

end AttrUsed6
